import Mathlib

/-!
Verification of the SuperScanner screening pipeline (src/app.py).

The repository computes technical indicators over a daily price/volume
history with pandas (`calculate_indicators`), evaluates four boolean gates
on the two most recent rows (`analyze_stock`), and fans the per-ticker
analysis over a universe, sorting the collected results by score
(`run_scan`).  The embedding below models the numeric pipeline over ℚ.
Pandas represents a missing rolling-window value as NaN and lets IEEE
division produce `inf` (for `x/0`, `x > 0`) and NaN (for `0/0`); the
inductive `PF` value type makes those special values explicit, and
rolling-window results are `Option ℚ` (`none` = NaN).
-/

attribute [local semireducible] Rat.add Rat.mul Rat.inv Rat.sub Rat.ofScientific

/-- A pandas/IEEE float value as it occurs in this pipeline: an exact
rational, one of the two infinities, or NaN. -/
inductive PF where
  | nan : PF
  | inf : PF
  | ninf : PF
  | num : ℚ → PF
deriving DecidableEq

/-- A rolling-window result (`Option ℚ`, `none` = NaN) viewed as a `PF`. -/
def PF.ofOpt : Option ℚ → PF
  | none => PF.nan
  | some q => PF.num q

/-- IEEE addition on `PF` values. -/
def PF.add : PF → PF → PF
  | PF.nan, _ => PF.nan
  | _, PF.nan => PF.nan
  | PF.num a, PF.num b => PF.num (a + b)
  | PF.num _, PF.inf => PF.inf
  | PF.inf, PF.num _ => PF.inf
  | PF.num _, PF.ninf => PF.ninf
  | PF.ninf, PF.num _ => PF.ninf
  | PF.inf, PF.inf => PF.inf
  | PF.ninf, PF.ninf => PF.ninf
  | PF.inf, PF.ninf => PF.nan
  | PF.ninf, PF.inf => PF.nan

/-- IEEE subtraction on `PF` values. -/
def PF.sub : PF → PF → PF
  | PF.nan, _ => PF.nan
  | _, PF.nan => PF.nan
  | PF.num a, PF.num b => PF.num (a - b)
  | PF.num _, PF.inf => PF.ninf
  | PF.inf, PF.num _ => PF.inf
  | PF.num _, PF.ninf => PF.inf
  | PF.ninf, PF.num _ => PF.ninf
  | PF.inf, PF.inf => PF.nan
  | PF.ninf, PF.ninf => PF.nan
  | PF.inf, PF.ninf => PF.inf
  | PF.ninf, PF.inf => PF.ninf

/-- IEEE division on `PF` values (zeros are the positive zero of ℚ, so
`a/0` has the sign of `a` and `0/0` is NaN). -/
def PF.div : PF → PF → PF
  | PF.nan, _ => PF.nan
  | _, PF.nan => PF.nan
  | PF.num a, PF.num b =>
      if b = 0 then (if a = 0 then PF.nan else if 0 < a then PF.inf else PF.ninf)
      else PF.num (a / b)
  | PF.num _, PF.inf => PF.num 0
  | PF.num _, PF.ninf => PF.num 0
  | PF.inf, PF.num b => if 0 ≤ b then PF.inf else PF.ninf
  | PF.ninf, PF.num b => if 0 ≤ b then PF.ninf else PF.inf
  | PF.inf, PF.inf => PF.nan
  | PF.inf, PF.ninf => PF.nan
  | PF.ninf, PF.inf => PF.nan
  | PF.ninf, PF.ninf => PF.nan

/-- IEEE strict comparison on `PF` values: any comparison with NaN is false. -/
def PF.lt : PF → PF → Bool
  | PF.nan, _ => false
  | _, PF.nan => false
  | PF.num a, PF.num b => decide (a < b)
  | PF.num _, PF.inf => true
  | PF.inf, PF.num _ => false
  | PF.ninf, PF.num _ => true
  | PF.num _, PF.ninf => false
  | PF.ninf, PF.inf => true
  | PF.inf, PF.ninf => false
  | PF.inf, PF.inf => false
  | PF.ninf, PF.ninf => false

/-- The rational payload of a finite `PF` value (only ever read on values
the gate logic has already checked to be finite). -/
def PF.toRat : PF → ℚ
  | PF.num q => q
  | _ => 0

/-- `Series.rolling(window=w).mean()` at index `i`: the arithmetic mean of
the trailing `w` entries, absent (NaN) while the window is not full or the
index is out of range. -/
def rollMean (w : ℕ) (xs : List ℚ) (i : ℕ) : Option ℚ :=
  if w ≤ i + 1 ∧ i < xs.length then
    some (((xs.drop (i + 1 - w)).take w).sum / (w : ℚ))
  else none

/-- Tail of `Series.ewm(span, adjust=False).mean()`: `a` is the previous
smoothed value, and each entry `x` contributes `x*k + prev*(1-k)`. -/
def emaFrom (k : ℚ) (a : ℚ) : List ℚ → List ℚ
  | [] => []
  | x :: xs => (x * k + a * (1 - k)) :: emaFrom k (x * k + a * (1 - k)) xs

/-- `Series.ewm(span, adjust=False).mean()` with smoothing factor `k`:
seeded by the first value, then the recurrence of `emaFrom`. -/
def emaList (k : ℚ) : List ℚ → List ℚ
  | [] => []
  | x :: xs => x :: emaFrom k x xs

/-- `df['MACD_Line'] = ema12 - ema26` with spans 12 and 26
(smoothing factors 2/13 and 2/27). -/
def macdList (closes : List ℚ) : List ℚ :=
  List.zipWith (· - ·) (emaList (2 / 13) closes) (emaList (2 / 27) closes)

/-- `df['Signal_Line']`: span-9 EMA (smoothing factor 2/10) of the MACD line. -/
def signalList (closes : List ℚ) : List ℚ :=
  emaList (2 / 10) (macdList closes)

/-- `df['MACD_Hist'] = MACD_Line - Signal_Line`. -/
def histList (closes : List ℚ) : List ℚ :=
  List.zipWith (· - ·) (macdList closes) (signalList closes)

/-- Helper for `gains`: per-bar positive deltas against the previous close. -/
def gainsAux (prev : ℚ) : List ℚ → List ℚ
  | [] => []
  | x :: xs => max (x - prev) 0 :: gainsAux x xs

/-- `gain = delta.where(delta > 0, 0)`: the first diff is NaN, which
`where` masks to 0; afterwards the positive part of each delta. -/
def gains : List ℚ → List ℚ
  | [] => []
  | c :: cs => 0 :: gainsAux c cs

/-- Helper for `losses`: per-bar negative deltas against the previous close. -/
def lossesAux (prev : ℚ) : List ℚ → List ℚ
  | [] => []
  | x :: xs => max (prev - x) 0 :: lossesAux x xs

/-- `loss = -delta.where(delta < 0, 0)`: the negative part of each delta,
with the masked first entry 0. -/
def losses : List ℚ → List ℚ
  | [] => []
  | c :: cs => 0 :: lossesAux c cs

/-- `rs = avg_gain / avg_loss; RSI = 100 - 100/(1+rs)` under IEEE
semantics: NaN windows propagate, `x/0` for `x > 0` is `inf` (collapsing
the formula to 100), and `0/0` is NaN. -/
def rsiOf (og ol : Option ℚ) : PF :=
  PF.sub (PF.num 100)
    (PF.div (PF.num 100) (PF.add (PF.num 1) (PF.div (PF.ofOpt og) (PF.ofOpt ol))))

/-- `df['RSI']` at index `i`: the 14-bar average gain/loss ratio folded
through the RSI formula. -/
def rsiAt (closes : List ℚ) (i : ℕ) : PF :=
  rsiOf (rollMean 14 (gains closes) i) (rollMean 14 (losses closes) i)

/-- One row of the downloaded daily history.  The pipeline reads only the
`Close` and `Volume` columns; the other OHLC columns are never consulted. -/
structure Bar where
  close : ℚ
  volume : ℚ
deriving DecidableEq

/-- The `Close` column of a history. -/
def closesOf (bars : List Bar) : List ℚ := bars.map (fun b => b.close)

/-- The `Volume` column of a history. -/
def volsOf (bars : List Bar) : List ℚ := bars.map (fun b => b.volume)

/-- Executable floor of a rational (numerator Euclidean-divided by the
positive denominator). -/
def ratFloor (q : ℚ) : ℤ := q.num / (q.den : ℤ)

/-- Python's `round` to an integer: round half to even (banker's rounding). -/
def roundHalfEven (q : ℚ) : ℤ :=
  if q - ratFloor q < 1 / 2 then ratFloor q
  else if 1 / 2 < q - ratFloor q then ratFloor q + 1
  else if ratFloor q % 2 = 0 then ratFloor q else ratFloor q + 1

/-- Python's `round(x, 2)`: two-decimal rounding, half to even. -/
def round2 (q : ℚ) : ℚ := (roundHalfEven (q * 100) : ℚ) / 100

/-- The record `analyze_stock` returns for a passing ticker. -/
structure ScreenResult where
  symbol : String
  price : ℚ
  change : ℚ
  vol_ratio : ℚ
  rsi : ℚ
  score : ℚ
deriving DecidableEq

/-- `vol_ratio = float(curr['Volume']) / float(curr['Vol_SMA']) if
curr['Vol_SMA'] > 0 else 0` at the last row (a NaN 20-bar average also
fails the `> 0` test, giving 0). -/
def volRatioAt (bars : List Bar) : ℚ :=
  match rollMean 20 (volsOf bars) (bars.length - 1) with
  | some v => if 0 < v then (volsOf bars).getD (bars.length - 1) 0 / v else 0
  | none => 0

/-- Gate 1, `trend_strong`: `price > SMA_50 > SMA_150 > SMA_200` at the
last row (chained float comparison; any NaN makes it false). -/
def trendOK (bars : List Bar) : Bool :=
  match rollMean 50 (closesOf bars) (bars.length - 1),
        rollMean 150 (closesOf bars) (bars.length - 1),
        rollMean 200 (closesOf bars) (bars.length - 1) with
  | some a, some b, some c =>
      decide ((closesOf bars).getD (bars.length - 1) 0 > a) &&
        decide (a > b) && decide (b > c)
  | _, _, _ => false

/-- Gate 2a, `macd_above_zero`: `curr['MACD_Line'] > 0`. -/
def macdAboveZero (bars : List Bar) : Bool :=
  decide (0 < (macdList (closesOf bars)).getD (bars.length - 1) 0)

/-- Gate 2b, `macd_trigger`: fresh crossover
(`prev hist < 0 and curr hist > 0`) or accelerating histogram
(`curr hist > 0 and curr hist > prev hist`). -/
def macdTrigger (bars : List Bar) : Bool :=
  (decide ((histList (closesOf bars)).getD (bars.length - 2) 0 < 0) &&
    decide (0 < (histList (closesOf bars)).getD (bars.length - 1) 0)) ||
  (decide (0 < (histList (closesOf bars)).getD (bars.length - 1) 0) &&
    decide ((histList (closesOf bars)).getD (bars.length - 2) 0 <
      (histList (closesOf bars)).getD (bars.length - 1) 0))

/-- Gate 3, `rsi_check`: `50 < curr['RSI'] < 85` under float comparison
(false when the RSI is NaN). -/
def rsiOK (bars : List Bar) : Bool :=
  PF.lt (PF.num 50) (rsiAt (closesOf bars) (bars.length - 1)) &&
    PF.lt (rsiAt (closesOf bars) (bars.length - 1)) (PF.num 85)

/-- Gate 4, `vol_check`: `vol_ratio > 1.2`. -/
def volOK (bars : List Bar) : Bool :=
  decide (6 / 5 < volRatioAt bars)

/-- The body of `analyze_stock` after the download: reject histories of
fewer than 200 rows (this covers `df.empty`), evaluate the four gates on
the last two rows, and on success build the result record. -/
def analyzeHistory (ticker : String) (bars : List Bar) : Option ScreenResult :=
  if bars.length < 200 then none
  else if trendOK bars && macdAboveZero bars && macdTrigger bars &&
      rsiOK bars && volOK bars then
    some
      { symbol := ticker
        price := round2 ((closesOf bars).getD (bars.length - 1) 0)
        change := round2
          (((closesOf bars).getD (bars.length - 1) 0 -
              (closesOf bars).getD (bars.length - 2) 0) /
            (closesOf bars).getD (bars.length - 2) 0 * 100)
        vol_ratio := round2 (volRatioAt bars)
        rsi := round2 (rsiAt (closesOf bars) (bars.length - 1)).toRat
        score := (roundHalfEven
          ((rsiAt (closesOf bars) (bars.length - 1)).toRat +
            volRatioAt bars * 10) : ℚ) }
  else none

/-- `analyze_stock`: the download is an external effect, modelled as a
fallible function; any fault it raises is caught by the surrounding
`try/except` and becomes `None`. -/
def analyze_stock (fetch : String → Except String (List Bar))
    (ticker : String) : Option ScreenResult :=
  match fetch ticker with
  | Except.error _ => none
  | Except.ok bars => analyzeHistory ticker bars

/-- Stable descending insertion by score: the new element goes before an
existing one exactly when its score is strictly greater, so elements with
equal scores keep their original relative order (the observable behaviour
of Python's stable `list.sort(key=score, reverse=True)`). -/
def insertDesc (x : ScreenResult) : List ScreenResult → List ScreenResult
  | [] => [x]
  | y :: ys => if y.score ≤ x.score then x :: y :: ys else y :: insertDesc x ys

/-- Stable sort by score descending. -/
def sortDesc : List ScreenResult → List ScreenResult
  | [] => []
  | x :: xs => insertDesc x (sortDesc xs)

/-- `run_scan` on a given universe: collect the non-`None` analyzer
results in universe order (the futures dict iterates in submission order),
then sort by score descending, stably. -/
def run_scan (fetch : String → Except String (List Bar))
    (tickers : List String) : List ScreenResult :=
  sortDesc (tickers.filterMap (analyze_stock fetch))

/-- The four gates as the specification states them, including the
presence requirements: the three SMAs exist at the last row, the RSI is an
actual number there, the trend chain is strict, the MACD momentum trigger
fires, the RSI sits strictly inside (50, 85), and the volume ratio
exceeds 1.2. -/
def GatesPassSpec (bars : List Bar) : Prop :=
  ∃ a b c ρ,
    rollMean 50 (closesOf bars) (bars.length - 1) = some a ∧
    rollMean 150 (closesOf bars) (bars.length - 1) = some b ∧
    rollMean 200 (closesOf bars) (bars.length - 1) = some c ∧
    rsiAt (closesOf bars) (bars.length - 1) = PF.num ρ ∧
    (closesOf bars).getD (bars.length - 1) 0 > a ∧ a > b ∧ b > c ∧
    0 < (macdList (closesOf bars)).getD (bars.length - 1) 0 ∧
    ((histList (closesOf bars)).getD (bars.length - 2) 0 < 0 ∧
        0 < (histList (closesOf bars)).getD (bars.length - 1) 0 ∨
      0 < (histList (closesOf bars)).getD (bars.length - 1) 0 ∧
        (histList (closesOf bars)).getD (bars.length - 2) 0 <
          (histList (closesOf bars)).getD (bars.length - 1) 0) ∧
    50 < ρ ∧ ρ < 85 ∧
    6 / 5 < volRatioAt bars

/-- Ticker used for concrete instantiations. -/
def tickNVDA : String := "NVDA"

/-- A flat-price, flat-volume 220-bar history (the zero-variance scenario
named by the specification). -/
def flatBars220 : List Bar := List.replicate 220 { close := 1, volume := 1 }

/-- Closes of a crafted 200-bar history that passes all four gates: a
linear ramp 1..186, then fourteen bars mixing pullbacks with an
accelerating finish. -/
def goodCloses : List ℚ :=
  (List.range 186).map (fun n => ((n : ℚ) + 1)) ++
    [191, 187, 192, 188, 193, 189, 194, 190, 192, 195, 199, 204, 210, 218]

/-- Volumes of the crafted history: steady 100, with a 10× surge on the
final bar. -/
def goodVols : List ℚ := List.replicate 199 (100 : ℚ) ++ [1000]

/-- The crafted all-gates-pass 200-bar history. -/
def goodBars : List Bar :=
  (goodCloses.zip goodVols).map (fun p => { close := p.1, volume := p.2 })

/-- The record `analyze_stock` produces on `goodBars` (RSI is exactly 75,
volume ratio 200/29). -/
def goodResult : ScreenResult :=
  { symbol := tickNVDA, price := 218, change := 381 / 100,
    vol_ratio := 69 / 10, rsi := 75, score := 144 }

/-! ### Helper lemmas -/

theorem ratFloor_eq_floor (q : ℚ) : ratFloor q = ⌊q⌋ := by
  rw [Rat.floor_def]; rfl

theorem ratFloor_le (q : ℚ) : (ratFloor q : ℚ) ≤ q := by
  rw [ratFloor_eq_floor]; exact Int.floor_le q

theorem lt_ratFloor_add_one (q : ℚ) : q < ratFloor q + 1 := by
  rw [ratFloor_eq_floor]; exact_mod_cast Int.lt_floor_add_one q

theorem ratFloor_le_roundHalfEven (q : ℚ) : ratFloor q ≤ roundHalfEven q := by
  unfold roundHalfEven
  split
  · exact le_refl _
  · split
    · omega
    · split
      · exact le_refl _
      · omega

theorem roundHalfEven_ge_of_lt {z : ℤ} {q : ℚ} (h : (z : ℚ) < q) :
    z ≤ roundHalfEven q := by
  have h1 : (z : ℚ) < (ratFloor q : ℚ) + 1 := lt_of_lt_of_le h (le_of_lt (lt_ratFloor_add_one q))
  have h2 : z < ratFloor q + 1 := by exact_mod_cast h1
  have h3 : z ≤ ratFloor q := by omega
  exact le_trans h3 (ratFloor_le_roundHalfEven q)

theorem getD_nonneg : ∀ (xs : List ℚ) (i : ℕ), (∀ x ∈ xs, 0 ≤ x) → 0 ≤ xs.getD i 0
  | [], _, _ => le_refl 0
  | x :: _, 0, h => h x (List.mem_cons_self _ _)
  | _ :: xs, i + 1, h =>
    getD_nonneg xs i (fun y hy => h y (List.mem_cons_of_mem _ hy))

theorem gainsAux_nonneg : ∀ (xs : List ℚ) (prev : ℚ), ∀ x ∈ gainsAux prev xs, 0 ≤ x := by
  intro xs
  induction xs with
  | nil => intro prev x hx; simp [gainsAux] at hx
  | cons y ys ih =>
    intro prev x hx
    rcases List.mem_cons.mp hx with h | h
    · rw [h]; exact le_max_right _ _
    · exact ih y x h

theorem gains_nonneg (closes : List ℚ) : ∀ x ∈ gains closes, 0 ≤ x := by
  cases closes with
  | nil => intro x hx; simp [gains] at hx
  | cons c cs =>
    intro x hx
    rcases List.mem_cons.mp hx with h | h
    · rw [h]
    · exact gainsAux_nonneg cs c x h

theorem lossesAux_nonneg : ∀ (xs : List ℚ) (prev : ℚ), ∀ x ∈ lossesAux prev xs, 0 ≤ x := by
  intro xs
  induction xs with
  | nil => intro prev x hx; simp [lossesAux] at hx
  | cons y ys ih =>
    intro prev x hx
    rcases List.mem_cons.mp hx with h | h
    · rw [h]; exact le_max_right _ _
    · exact ih y x h

theorem losses_nonneg (closes : List ℚ) : ∀ x ∈ losses closes, 0 ≤ x := by
  cases closes with
  | nil => intro x hx; simp [losses] at hx
  | cons c cs =>
    intro x hx
    rcases List.mem_cons.mp hx with h | h
    · rw [h]
    · exact lossesAux_nonneg cs c x h

theorem rollMean_nonneg {w : ℕ} {xs : List ℚ} {i : ℕ} {g : ℚ}
    (hx : ∀ x ∈ xs, 0 ≤ x) (h : rollMean w xs i = some g) : 0 ≤ g := by
  unfold rollMean at h
  split at h
  · have hg : ((xs.drop (i + 1 - w)).take w).sum / (w : ℚ) = g := by
      exact Option.some.inj h
    rw [← hg]
    apply div_nonneg
    · apply List.sum_nonneg
      intro x hmem
      exact hx x (List.drop_subset _ _ (List.take_subset _ _ hmem))
    · exact_mod_cast Nat.zero_le w
  · exact absurd h (by simp)

/-! ### C4: short histories give `absent` -/

/-- C4: for every history that is empty or has fewer than 200 bars, the
analyzer returns `absent` (`None`), as an expected outcome rather than an
error: both the evaluator body and the fetch-level analyzer return `none`. -/
theorem analyze_short_absent (fetch : String → Except String (List Bar))
    (t : String) (bars : List Bar) (hf : fetch t = Except.ok bars)
    (h : bars.length < 200) :
    analyzeHistory t bars = none ∧ analyze_stock fetch t = none := by
  have h1 : analyzeHistory t bars = none := by
    unfold analyzeHistory
    rw [if_pos h]
  refine ⟨h1, ?_⟩
  unfold analyze_stock
  rw [hf]
  exact h1

/-- Witness for C4 at the empty history. -/
theorem analyze_short_absent_witness :
    analyzeHistory tickNVDA [] = none ∧
      analyze_stock (fun _ => Except.ok []) tickNVDA = none :=
  analyze_short_absent (fun _ => Except.ok []) tickNVDA [] rfl (by decide)

/-! ### C6: the volume ratio is total and nonnegative -/

/-- C6: on volumes that are nonnegative (as all real volumes are), the
volume ratio is always ≥ 0, and whenever the 20-bar volume average is ≤ 0
or absent the ratio is defined as exactly 0 — no division fault. -/
theorem volRatio_nonneg (bars : List Bar) (h : ∀ b ∈ bars, 0 ≤ b.volume) :
    0 ≤ volRatioAt bars ∧
      (∀ v, rollMean 20 (volsOf bars) (bars.length - 1) = some v → v ≤ 0 →
        volRatioAt bars = 0) ∧
      (rollMean 20 (volsOf bars) (bars.length - 1) = none → volRatioAt bars = 0) := by
  have hvols : ∀ x ∈ volsOf bars, 0 ≤ x := by
    intro x hx
    rcases List.mem_map.mp hx with ⟨b, hb, hbx⟩
    rw [← hbx]
    exact h b hb
  refine ⟨?_, ?_, ?_⟩
  · unfold volRatioAt
    split
    · rename_i v hv
      split
      · rename_i hvpos
        exact div_nonneg (getD_nonneg _ _ hvols) (le_of_lt hvpos)
      · exact le_refl 0
    · exact le_refl 0
  · intro v hv hv0
    unfold volRatioAt
    rw [hv]
    exact if_neg (not_lt.mpr hv0)
  · intro hv
    unfold volRatioAt
    rw [hv]

/-- Witness for C6 at a one-bar history (window not full, ratio 0). -/
theorem volRatio_nonneg_witness :
    0 ≤ volRatioAt [{ close := 1, volume := 5 }] ∧
      (∀ v, rollMean 20 (volsOf [{ close := 1, volume := 5 }]) 0 = some v → v ≤ 0 →
        volRatioAt [{ close := 1, volume := 5 }] = 0) ∧
      (rollMean 20 (volsOf [{ close := 1, volume := 5 }]) 0 = none →
        volRatioAt [{ close := 1, volume := 5 }] = 0) :=
  volRatio_nonneg [{ close := 1, volume := 5 }] (by decide)

/-! ### C2: RSI range; the `avgLoss = 0` case -/

set_option maxRecDepth 40000 in
/-- Counterexample to C2: on the flat-price 220-bar history the trailing
14-bar average loss at the last position is 0, yet the RSI there is not
100 — `avg_gain/avg_loss` is the float `0/0`, i.e. NaN, which propagates. -/
theorem rsi_flat_counterexample :
    rollMean 14 (losses (closesOf flatBars220)) 219 = some 0 ∧
      rsiAt (closesOf flatBars220) 219 ≠ PF.num 100 ∧
      rsiAt (closesOf flatBars220) 219 = PF.nan := by
  refine ⟨by decide, by decide, by decide⟩

/-- C2 amended: wherever the RSI is an actual number it lies in [0, 100];
when the average loss is 0 and the average gain is positive the RSI is
exactly 100; but when average gain and average loss are both 0 (as on a
flat-price history) the RSI is NaN (undefined), not 100. -/
theorem rsi_range_amended (closes : List ℚ) (i : ℕ) :
    (∀ ρ, rsiAt closes i = PF.num ρ → 0 ≤ ρ ∧ ρ ≤ 100) ∧
      (∀ g, rollMean 14 (gains closes) i = some g → 0 < g →
        rollMean 14 (losses closes) i = some 0 → rsiAt closes i = PF.num 100) ∧
      (rollMean 14 (gains closes) i = some 0 →
        rollMean 14 (losses closes) i = some 0 → rsiAt closes i = PF.nan) := by
  refine ⟨?_, ?_, ?_⟩
  · intro ρ hρ
    unfold rsiAt rsiOf at hρ
    rcases hg : rollMean 14 (gains closes) i with _ | g
    · rw [hg] at hρ
      simp [PF.ofOpt, PF.div, PF.add, PF.sub] at hρ
    rcases hl : rollMean 14 (losses closes) i with _ | l
    · rw [hg, hl] at hρ
      rcases hl2 : rollMean 14 (losses closes) i
      · simp [PF.ofOpt, PF.div, PF.add, PF.sub] at hρ
      · simp [PF.ofOpt, PF.div, PF.add, PF.sub] at hρ
    · rw [hg, hl] at hρ
      have hg0 : 0 ≤ g := rollMean_nonneg (gains_nonneg closes) hg
      have hl0 : 0 ≤ l := rollMean_nonneg (losses_nonneg closes) hl
      by_cases hlz : l = 0
      · subst hlz
        by_cases hgz : g = 0
        · subst hgz
          simp [PF.ofOpt, PF.div, PF.add, PF.sub] at hρ
        · have hgpos : 0 < g := lt_of_le_of_ne hg0 (Ne.symm hgz)
          simp [PF.ofOpt, PF.div, PF.add, PF.sub, hgz, hgpos] at hρ
          constructor <;> simp [← hρ]
      · have hlpos : 0 < l := lt_of_le_of_ne hl0 (Ne.symm hlz)
        have hx : (0 : ℚ) ≤ g / l := div_nonneg hg0 hl0
        have h1x : (0 : ℚ) < 1 + g / l := by linarith
        simp [PF.ofOpt, PF.div, PF.add, PF.sub, hlz, ne_of_gt h1x] at hρ
        have hfrac_pos : (0 : ℚ) < 100 / (1 + g / l) := by positivity
        have hfrac_le : 100 / (1 + g / l) ≤ 100 := by
          apply div_le_self <;> linarith
        constructor <;> [linarith [hρ, hfrac_le]; linarith [hρ, hfrac_pos]]
  · intro g hg hgpos hl
    unfold rsiAt rsiOf
    rw [hg, hl]
    simp [PF.ofOpt, PF.div, PF.add, PF.sub, ne_of_gt hgpos, hgpos]
  · intro hg hl
    unfold rsiAt rsiOf
    rw [hg, hl]
    simp [PF.ofOpt, PF.div, PF.add, PF.sub]

/-- Witness for C2's amended statement: a 15-bar zig-zag history has RSI
exactly 50 at its last position, inside [0, 100]; a rising 15-bar history
has average loss 0 with positive average gain and RSI exactly 100. -/
theorem rsi_range_amended_witness :
    ((0 : ℚ) ≤ 50 ∧ (50 : ℚ) ≤ 100) ∧
      rsiAt [1, 2, 1, 2, 1, 2, 1, 2, 1, 2, 1, 2, 1, 2, 1] 14 = PF.num 50 ∧
      rsiAt [1, 2, 3, 4, 5, 6, 7, 8, 9, 10, 11, 12, 13, 14, 15] 14 = PF.num 100 :=
  ⟨(rsi_range_amended [1, 2, 1, 2, 1, 2, 1, 2, 1, 2, 1, 2, 1, 2, 1] 14).1 50 (by decide),
   by decide,
   (rsi_range_amended [1, 2, 3, 4, 5, 6, 7, 8, 9, 10, 11, 12, 13, 14, 15] 14).2.1
     1 (by decide) (by decide) (by decide)⟩

/-! ### C8: EMA recurrences and the MACD triple -/

theorem emaFrom_length (k a : ℚ) : ∀ xs : List ℚ, (emaFrom k a xs).length = xs.length := by
  intro xs
  induction xs generalizing a with
  | nil => rfl
  | cons x xs ih => simp [emaFrom, ih]

theorem emaList_length (k : ℚ) (xs : List ℚ) : (emaList k xs).length = xs.length := by
  cases xs with
  | nil => rfl
  | cons x xs => simp [emaList, emaFrom_length]

theorem emaFrom_getD_succ (k : ℚ) :
    ∀ (xs : List ℚ) (a : ℚ) (i : ℕ), i + 1 < xs.length →
      (emaFrom k a xs).getD (i + 1) 0 =
        xs.getD (i + 1) 0 * k + (emaFrom k a xs).getD i 0 * (1 - k) := by
  intro xs
  induction xs with
  | nil => intro a i h; simp at h
  | cons x xs ih =>
    intro a i h
    cases i with
    | zero =>
      cases xs with
      | nil => simp at h
      | cons y ys => simp [emaFrom]
    | succ i =>
      have h2 : i + 1 < xs.length := by simpa using h
      simpa [emaFrom] using ih (x * k + a * (1 - k)) i h2

theorem emaList_getD_zero (k : ℚ) (xs : List ℚ) (h : xs ≠ []) :
    (emaList k xs).getD 0 0 = xs.getD 0 0 := by
  cases xs with
  | nil => exact absurd rfl h
  | cons x xs => rfl

theorem emaList_getD_succ (k : ℚ) (xs : List ℚ) (i : ℕ) (h : i + 1 < xs.length) :
    (emaList k xs).getD (i + 1) 0 =
      xs.getD (i + 1) 0 * k + (emaList k xs).getD i 0 * (1 - k) := by
  cases xs with
  | nil => simp at h
  | cons x xs =>
    cases i with
    | zero =>
      cases xs with
      | nil => simp at h
      | cons y ys => simp [emaList, emaFrom]
    | succ i =>
      have h2 : i + 1 < xs.length := by simpa using h
      simpa [emaList] using emaFrom_getD_succ k xs x i h2

theorem getD_zipWith_sub :
    ∀ (l₁ l₂ : List ℚ) (i : ℕ), i < l₁.length → i < l₂.length →
      (List.zipWith (fun a b => a - b) l₁ l₂).getD i 0 = l₁.getD i 0 - l₂.getD i 0 := by
  intro l₁
  induction l₁ with
  | nil => intro l₂ i h1 h2; simp at h1
  | cons x xs ih =>
    intro l₂ i h1 h2
    cases l₂ with
    | nil => simp at h2
    | cons y ys =>
      cases i with
      | zero => rfl
      | succ i =>
        have hx1 : i < xs.length := by simpa using h1
        have hx2 : i < ys.length := by simpa using h2
        simpa using ih ys i hx1 hx2

/-- C8: the EMA is seeded by the first value and obeys
`ema[i] = value[i]*k + ema[i-1]*(1-k)` for every smoothing factor `k`
(the pipeline uses `k = 2/(span+1)` for spans 12, 26, 9); the MACD line is
`ema12 - ema26` at every position, the signal line is the span-9 EMA of
the MACD line, and the histogram is their difference at every position. -/
theorem macd_recurrences (xs : List ℚ) (k : ℚ) (i j : ℕ) (h0 : xs ≠ [])
    (hi : i + 1 < xs.length) (hj : j < xs.length) :
    (emaList k xs).getD 0 0 = xs.getD 0 0 ∧
      (emaList k xs).getD (i + 1) 0 =
        xs.getD (i + 1) 0 * k + (emaList k xs).getD i 0 * (1 - k) ∧
      (macdList xs).getD j 0 =
        (emaList (2 / 13) xs).getD j 0 - (emaList (2 / 27) xs).getD j 0 ∧
      signalList xs = emaList (2 / 10) (macdList xs) ∧
      (histList xs).getD j 0 = (macdList xs).getD j 0 - (signalList xs).getD j 0 := by
  have hmacd_len : (macdList xs).length = xs.length := by
    simp [macdList, List.length_zipWith, emaList_length]
  have hsig_len : (signalList xs).length = xs.length := by
    simp [signalList, emaList_length, hmacd_len]
  refine ⟨emaList_getD_zero k xs h0, emaList_getD_succ k xs i hi, ?_, rfl, ?_⟩
  · exact getD_zipWith_sub _ _ j (by rw [emaList_length]; exact hj)
      (by rw [emaList_length]; exact hj)
  · exact getD_zipWith_sub _ _ j (by rw [hmacd_len]; exact hj)
      (by rw [hsig_len]; exact hj)

/-- Witness for C8 on the three-bar history `[1, 2, 4]` with `k = 1/2`. -/
theorem macd_recurrences_witness :
    (emaList (1 / 2) [1, 2, 4]).getD 0 0 = ([1, 2, 4] : List ℚ).getD 0 0 ∧
      (emaList (1 / 2) [1, 2, 4]).getD 2 0 =
        ([1, 2, 4] : List ℚ).getD 2 0 * (1 / 2) +
          (emaList (1 / 2) [1, 2, 4]).getD 1 0 * (1 - 1 / 2) ∧
      (macdList [1, 2, 4]).getD 2 0 =
        (emaList (2 / 13) [1, 2, 4]).getD 2 0 - (emaList (2 / 27) [1, 2, 4]).getD 2 0 ∧
      signalList [1, 2, 4] = emaList (2 / 10) (macdList [1, 2, 4]) ∧
      (histList [1, 2, 4]).getD 2 0 =
        (macdList [1, 2, 4]).getD 2 0 - (signalList [1, 2, 4]).getD 2 0 :=
  macd_recurrences [1, 2, 4] (1 / 2) 1 2 (by decide) (by decide) (by decide)

/-! ### C5: descending, stable, total ranking -/

theorem mem_insertDesc (x z : ScreenResult) :
    ∀ l : List ScreenResult, z ∈ insertDesc x l ↔ z = x ∨ z ∈ l := by
  intro l
  induction l with
  | nil => simp [insertDesc]
  | cons y ys ih =>
    unfold insertDesc
    split
    · simp
    · rw [List.mem_cons, List.mem_cons, ih]
      tauto

theorem pairwise_insertDesc (x : ScreenResult) :
    ∀ l : List ScreenResult,
      l.Pairwise (fun a b => b.score ≤ a.score) →
      (insertDesc x l).Pairwise (fun a b => b.score ≤ a.score) := by
  intro l
  induction l with
  | nil => intro _; simp [insertDesc]
  | cons y ys ih =>
    intro h
    rcases List.pairwise_cons.mp h with ⟨hy, hys⟩
    unfold insertDesc
    split
    · rename_i hle
      refine List.pairwise_cons.mpr ⟨?_, h⟩
      intro z hz
      rcases List.mem_cons.mp hz with hzy | hzys
      · rw [hzy]; exact hle
      · exact le_trans (hy z hzys) hle
    · rename_i hnle
      refine List.pairwise_cons.mpr ⟨?_, ih hys⟩
      intro z hz
      rcases (mem_insertDesc x z ys).mp hz with hzx | hzys
      · rw [hzx]; exact le_of_lt (lt_of_not_le hnle)
      · exact hy z hzys

theorem sortDesc_pairwise :
    ∀ l : List ScreenResult,
      (sortDesc l).Pairwise (fun a b => b.score ≤ a.score) := by
  intro l
  induction l with
  | nil => simp [sortDesc]
  | cons x xs ih => exact pairwise_insertDesc x (sortDesc xs) ih

theorem filter_insertDesc_eq (x : ScreenResult) (sc : ℚ) (hx : x.score = sc) :
    ∀ l : List ScreenResult,
      (insertDesc x l).filter (fun r => decide (r.score = sc)) =
        x :: l.filter (fun r => decide (r.score = sc)) := by
  intro l
  induction l with
  | nil => simp [insertDesc, hx]
  | cons y ys ih =>
    unfold insertDesc
    split
    · simp [List.filter_cons, hx]
    · rename_i hnle
      have hy : ¬ y.score = sc := fun hc => hnle (le_of_eq (by rw [hc, hx]))
      simp [List.filter_cons, hy, ih]

theorem filter_insertDesc_ne (x : ScreenResult) (sc : ℚ) (hx : ¬ x.score = sc) :
    ∀ l : List ScreenResult,
      (insertDesc x l).filter (fun r => decide (r.score = sc)) =
        l.filter (fun r => decide (r.score = sc)) := by
  intro l
  induction l with
  | nil => simp [insertDesc, hx]
  | cons y ys ih =>
    unfold insertDesc
    split
    · simp [List.filter_cons, hx]
    · by_cases hy : y.score = sc
      · simp [List.filter_cons, hy, ih]
      · simp [List.filter_cons, hy, ih]

theorem sortDesc_filter (sc : ℚ) :
    ∀ l : List ScreenResult,
      (sortDesc l).filter (fun r => decide (r.score = sc)) =
        l.filter (fun r => decide (r.score = sc)) := by
  intro l
  induction l with
  | nil => rfl
  | cons x xs ih =>
    by_cases hx : x.score = sc
    · rw [sortDesc, filter_insertDesc_eq x sc hx (sortDesc xs), ih]
      simp [List.filter_cons, hx]
    · rw [sortDesc, filter_insertDesc_ne x sc hx (sortDesc xs), ih]
      simp [List.filter_cons, hx]

/-- C5: the scan output is sorted by score descending; results with equal
scores appear in the original universe order (the score-`sc` subsequence of
the output equals that of the unsorted collection, for every `sc`); and
when no instrument passes the scan returns the empty list. -/
theorem run_scan_sorted_stable (fetch : String → Except String (List Bar))
    (tickers : List String) :
    (run_scan fetch tickers).Pairwise (fun a b => b.score ≤ a.score) ∧
      (∀ sc : ℚ, (run_scan fetch tickers).filter (fun r => decide (r.score = sc)) =
        (tickers.filterMap (analyze_stock fetch)).filter
          (fun r => decide (r.score = sc))) ∧
      ((∀ t ∈ tickers, analyze_stock fetch t = none) → run_scan fetch tickers = []) := by
  refine ⟨sortDesc_pairwise _, fun sc => sortDesc_filter sc _, fun h => ?_⟩
  unfold run_scan
  rw [List.filterMap_eq_nil_iff.mpr h]
  rfl

/-- Witness for C5 on a two-ticker universe whose fetch always faults:
both analyzers yield `absent` and the scan output is empty. -/
theorem run_scan_sorted_stable_witness :
    run_scan (fun _ => Except.error ("boom")) ["AA", "BB"] = [] :=
  (run_scan_sorted_stable (fun _ => Except.error ("boom")) ["AA", "BB"]).2.2
    (by intro t ht; rfl)

/-! ### C3: one instrument's fault never aborts the scan -/

theorem filterMap_analyze_erase (fetch : String → Except String (List Bar))
    (s : String) (hs : analyze_stock fetch s = none) :
    ∀ tickers : List String,
      tickers.filterMap (analyze_stock fetch) =
        (tickers.filter (fun t => !(t == s))).filterMap (analyze_stock fetch) := by
  intro tickers
  induction tickers with
  | nil => rfl
  | cons t ts ih =>
    cases hbe : (t == s) with
    | true =>
      have hts : t = s := eq_of_beq hbe
      subst hts
      rw [List.filterMap_cons, hs, List.filter_cons]
      simp only [hbe, Bool.not_true]
      rw [if_neg (by simp)]
      exact ih
    | false =>
      rw [List.filterMap_cons, List.filter_cons]
      simp only [hbe, Bool.not_false]
      rw [if_pos trivial, List.filterMap_cons, ih]

/-- C3: when the fetch for symbol `s` raises a fault, the `try/except`
boundary converts it to `absent`, and the scan over any universe returns
exactly what it returns on the universe with `s` removed — the other
symbols' results are unchanged. -/
theorem fault_isolated (fetch : String → Except String (List Bar))
    (tickers : List String) (s e : String) (h : fetch s = Except.error e) :
    analyze_stock fetch s = none ∧
      run_scan fetch tickers = run_scan fetch (tickers.filter (fun t => !(t == s))) := by
  have hs : analyze_stock fetch s = none := by
    unfold analyze_stock
    rw [h]
  refine ⟨hs, ?_⟩
  unfold run_scan
  rw [filterMap_analyze_erase fetch s hs tickers]

/-- Witness for C3: a three-symbol universe where the fetch for "BAD"
faults; the scan equals the scan of the other two symbols. -/
theorem fault_isolated_witness :
    analyze_stock (fun t => if t == ("BAD" : String) then Except.error ("boom")
      else Except.ok []) ("BAD") = none ∧
      run_scan (fun t => if t == ("BAD" : String) then Except.error ("boom")
        else Except.ok []) ["AA", "BAD", "BB"] =
      run_scan (fun t => if t == ("BAD" : String) then Except.error ("boom")
        else Except.ok []) (["AA", "BAD", "BB"].filter (fun t => !(t == ("BAD" : String)))) :=
  fault_isolated _ ["AA", "BAD", "BB"] ("BAD") ("boom") rfl

/-! ### Gate characterizations -/

theorem trendOK_iff (bars : List Bar) :
    trendOK bars = true ↔ ∃ a b c,
      rollMean 50 (closesOf bars) (bars.length - 1) = some a ∧
      rollMean 150 (closesOf bars) (bars.length - 1) = some b ∧
      rollMean 200 (closesOf bars) (bars.length - 1) = some c ∧
      (closesOf bars).getD (bars.length - 1) 0 > a ∧ a > b ∧ b > c := by
  unfold trendOK
  rcases h50 : rollMean 50 (closesOf bars) (bars.length - 1) with _ | a
  · simp
  · rcases h150 : rollMean 150 (closesOf bars) (bars.length - 1) with _ | b
    · simp
    · rcases h200 : rollMean 200 (closesOf bars) (bars.length - 1) with _ | c
      · simp
      · simp [Bool.and_eq_true, decide_eq_true_iff, and_assoc]

theorem rsiOK_iff (bars : List Bar) :
    rsiOK bars = true ↔ ∃ ρ,
      rsiAt (closesOf bars) (bars.length - 1) = PF.num ρ ∧ 50 < ρ ∧ ρ < 85 := by
  unfold rsiOK
  rcases hr : rsiAt (closesOf bars) (bars.length - 1) with _ | _ | _ | ρ <;>
    simp [hr, PF.lt]

theorem macdAboveZero_iff (bars : List Bar) :
    macdAboveZero bars = true ↔
      0 < (macdList (closesOf bars)).getD (bars.length - 1) 0 := by
  simp [macdAboveZero]

theorem macdTrigger_iff (bars : List Bar) :
    macdTrigger bars = true ↔
      ((histList (closesOf bars)).getD (bars.length - 2) 0 < 0 ∧
        0 < (histList (closesOf bars)).getD (bars.length - 1) 0) ∨
      (0 < (histList (closesOf bars)).getD (bars.length - 1) 0 ∧
        (histList (closesOf bars)).getD (bars.length - 2) 0 <
          (histList (closesOf bars)).getD (bars.length - 1) 0) := by
  simp [macdTrigger, Bool.or_eq_true, Bool.and_eq_true, decide_eq_true_iff]

theorem volOK_iff (bars : List Bar) :
    volOK bars = true ↔ 6 / 5 < volRatioAt bars := by
  simp [volOK]

theorem gatesBool_iff (bars : List Bar) :
    (trendOK bars && macdAboveZero bars && macdTrigger bars &&
      rsiOK bars && volOK bars) = true ↔ GatesPassSpec bars := by
  rw [Bool.and_eq_true, Bool.and_eq_true, Bool.and_eq_true, Bool.and_eq_true]
  rw [trendOK_iff, macdAboveZero_iff, macdTrigger_iff, rsiOK_iff, volOK_iff]
  unfold GatesPassSpec
  constructor
  · rintro ⟨⟨⟨⟨⟨a, b, c, h1, h2, h3, h4, h5, h6⟩, hmz⟩, htg⟩, ⟨ρ, hρ, h50, h85⟩⟩, hv⟩
    exact ⟨a, b, c, ρ, h1, h2, h3, hρ, h4, h5, h6, hmz, htg, h50, h85, hv⟩
  · rintro ⟨a, b, c, ρ, h1, h2, h3, hρ, h4, h5, h6, hmz, htg, h50, h85, hv⟩
    exact ⟨⟨⟨⟨⟨a, b, c, h1, h2, h3, h4, h5, h6⟩, hmz⟩, htg⟩, ⟨ρ, hρ, h50, h85⟩⟩, hv⟩

/-! ### C1: the evaluator fires exactly when all four gates pass -/

/-- C1: on any history of at least 200 bars the evaluator returns a result
if and only if the four gates of the specification all pass at the two
most recent positions (with every required indicator value present); it is
total, so a missing value can only yield `absent`, never an error. -/
theorem analyze_isSome_iff_gates (t : String) (bars : List Bar)
    (h : 200 ≤ bars.length) :
    (analyzeHistory t bars).isSome ↔ GatesPassSpec bars := by
  unfold analyzeHistory
  rw [if_neg (by omega)]
  rw [← gatesBool_iff bars]
  cases hb : (trendOK bars && macdAboveZero bars && macdTrigger bars &&
      rsiOK bars && volOK bars) <;> simp [hb]

set_option maxRecDepth 40000 in
/-- Witness for C1 at the flat 220-bar history (where no gate passes and
the evaluator indeed returns `absent`). -/
theorem analyze_isSome_iff_gates_witness :
    (200 ≤ flatBars220.length) ∧
      ((analyzeHistory tickNVDA flatBars220).isSome ↔ GatesPassSpec flatBars220) :=
  ⟨by decide, analyze_isSome_iff_gates tickNVDA flatBars220 (by decide)⟩

/-! ### C7 and C10: the emitted record -/

set_option maxRecDepth 100000 in
/-- The crafted history evaluates to the expected record (checked by
kernel computation). -/
theorem good_eval : analyzeHistory tickNVDA goodBars = some goodResult := by
  decide

/-- C7: every emitted record carries `price = round2 curr.close`,
`changePct = round2 ((curr.close - prev.close)/prev.close * 100)`,
`volRatio` and `rsi` rounded to 2 decimals, and the integer score
`roundHalfEven (rsi + volRatio*10)` computed from the unrounded values. -/
theorem result_fields (t : String) (bars : List Bar) (r : ScreenResult)
    (h : analyzeHistory t bars = some r) :
    ∃ ρ v, rsiAt (closesOf bars) (bars.length - 1) = PF.num ρ ∧
      volRatioAt bars = v ∧
      r.symbol = t ∧
      r.price = round2 ((closesOf bars).getD (bars.length - 1) 0) ∧
      r.change = round2 (((closesOf bars).getD (bars.length - 1) 0 -
        (closesOf bars).getD (bars.length - 2) 0) /
        (closesOf bars).getD (bars.length - 2) 0 * 100) ∧
      r.vol_ratio = round2 v ∧
      r.rsi = round2 ρ ∧
      r.score = (roundHalfEven (ρ + v * 10) : ℚ) := by
  unfold analyzeHistory at h
  by_cases hlen : bars.length < 200
  · rw [if_pos hlen] at h
    exact absurd h (by simp)
  · rw [if_neg hlen] at h
    cases hb : (trendOK bars && macdAboveZero bars && macdTrigger bars &&
        rsiOK bars && volOK bars) with
    | false => rw [hb] at h; simp at h
    | true =>
      rw [hb, if_pos rfl] at h
      have hrec := Option.some.inj h
      subst hrec
      have hand := hb
      rw [Bool.and_eq_true, Bool.and_eq_true, Bool.and_eq_true,
        Bool.and_eq_true] at hand
      obtain ⟨⟨⟨⟨htr, hmz⟩, htg⟩, hrsi⟩, hv⟩ := hand
      obtain ⟨ρ, hρ, h50, h85⟩ := (rsiOK_iff bars).mp hrsi
      exact ⟨ρ, volRatioAt bars, hρ, rfl, rfl, rfl, rfl, rfl,
        by simp [hρ, PF.toRat], by simp [hρ, PF.toRat]⟩

/-- Witness for C7 at the crafted passing history. -/
theorem result_fields_witness :
    ∃ ρ v, rsiAt (closesOf goodBars) (goodBars.length - 1) = PF.num ρ ∧
      volRatioAt goodBars = v ∧
      goodResult.symbol = tickNVDA ∧
      goodResult.price = round2 ((closesOf goodBars).getD (goodBars.length - 1) 0) ∧
      goodResult.change = round2 (((closesOf goodBars).getD (goodBars.length - 1) 0 -
        (closesOf goodBars).getD (goodBars.length - 2) 0) /
        (closesOf goodBars).getD (goodBars.length - 2) 0 * 100) ∧
      goodResult.vol_ratio = round2 v ∧
      goodResult.rsi = round2 ρ ∧
      goodResult.score = (roundHalfEven (ρ + v * 10) : ℚ) :=
  result_fields tickNVDA goodBars goodResult good_eval

/-- C10: every emitted record satisfies, before rounding, `50 < rsi < 85`
and `volRatio > 1.2`, hence the unrounded composite exceeds 62 and the
emitted integer score is at least 62. -/
theorem score_bound (t : String) (bars : List Bar) (r : ScreenResult)
    (h : analyzeHistory t bars = some r) :
    ∃ ρ v, rsiAt (closesOf bars) (bars.length - 1) = PF.num ρ ∧
      volRatioAt bars = v ∧
      50 < ρ ∧ ρ < 85 ∧ 6 / 5 < v ∧ 62 < ρ + v * 10 ∧
      r.score = (roundHalfEven (ρ + v * 10) : ℚ) ∧ (62 : ℚ) ≤ r.score := by
  unfold analyzeHistory at h
  by_cases hlen : bars.length < 200
  · rw [if_pos hlen] at h
    exact absurd h (by simp)
  · rw [if_neg hlen] at h
    cases hb : (trendOK bars && macdAboveZero bars && macdTrigger bars &&
        rsiOK bars && volOK bars) with
    | false => rw [hb] at h; simp at h
    | true =>
      rw [hb, if_pos rfl] at h
      have hrec := Option.some.inj h
      subst hrec
      have hand := hb
      rw [Bool.and_eq_true, Bool.and_eq_true, Bool.and_eq_true,
        Bool.and_eq_true] at hand
      obtain ⟨⟨⟨⟨htr, hmz⟩, htg⟩, hrsi⟩, hv⟩ := hand
      obtain ⟨ρ, hρ, h50, h85⟩ := (rsiOK_iff bars).mp hrsi
      have hvr : 6 / 5 < volRatioAt bars := (volOK_iff bars).mp hv
      have hsum : 62 < ρ + volRatioAt bars * 10 := by linarith
      have hscore : (62 : ℤ) ≤ roundHalfEven (ρ + volRatioAt bars * 10) := by
        apply roundHalfEven_ge_of_lt
        exact_mod_cast hsum
      refine ⟨ρ, volRatioAt bars, hρ, rfl, h50, h85, hvr, hsum,
        by simp [hρ, PF.toRat], ?_⟩
      have : ((roundHalfEven ((rsiAt (closesOf bars) (bars.length - 1)).toRat +
          volRatioAt bars * 10)) : ℚ) =
          ((roundHalfEven (ρ + volRatioAt bars * 10)) : ℚ) := by
        simp [hρ, PF.toRat]
      rw [ScreenResult.score]
      exact le_trans (by exact_mod_cast hscore) (le_of_eq this.symm)

/-- Witness for C10 at the crafted passing history. -/
theorem score_bound_witness :
    ∃ ρ v, rsiAt (closesOf goodBars) (goodBars.length - 1) = PF.num ρ ∧
      volRatioAt goodBars = v ∧
      50 < ρ ∧ ρ < 85 ∧ 6 / 5 < v ∧ 62 < ρ + v * 10 ∧
      goodResult.score = (roundHalfEven (ρ + v * 10) : ℚ) ∧
      (62 : ℚ) ≤ goodResult.score :=
  score_bound tickNVDA goodBars goodResult good_eval


